import Mathlib

/-!
Verification of the MPD protocol request layer
(`mopidy/mpd/protocol/__init__.py`): the `tokenize` line tokenizer, the
`handle_request` registration decorator with its `mpd_commands` /
`request_handlers` tables, and the pattern dispatcher.

The regular expressions of the source (`WORD_RE`, `PARAM_RE`,
`UNESCAPE_RE`, and the name search `([a-z_]+)`) are embedded as
deterministic scanners: each regex is simple enough that its backtracking
behaviour reduces to maximal-munch runs over character classes, which is
recorded in the comments next to each definition.
-/

deriving instance DecidableEq for Except

namespace Mpd

/-- Errors raised by `tokenize`: `Exception('Invalid command')` when
`WORD_RE` does not match, `Exception('Invalid parameter')` when `PARAM_RE`
does not match a remainder. -/
inductive TokenizeError where
  | invalidCommand
  | invalidArgument
deriving DecidableEq, Repr

/-- First character of a command name: the class `[a-z]` of `WORD_RE`. -/
def isNameStart (c : Char) : Bool :=
  'a' ≤ c && c ≤ 'z'

/-- Later characters of a command name: the class `[a-z0-9_]` of `WORD_RE`. -/
def isNameChar (c : Char) : Bool :=
  isNameStart c || ('0' ≤ c && c ≤ '9') || c == '_'

/-- Python's `\s` for patterns compiled without `re.UNICODE`
(as `WORD_RE` and `PARAM_RE` are): space, tab, newline, carriage return,
vertical tab, form feed. -/
def isWS (c : Char) : Bool :=
  c == ' ' || c == '\t' || c == '\n' || c == '\r' || c == '\x0B' || c == '\x0C'

/-- The unquoted-token class of `PARAM_RE`: the complement of
`[%(unprintable)s"\\]` where `unprintable` is built by
`''.join(map(chr, range(0x21)))`, i.e. every character with ordinal value
at most 0x20 (note: `range(0x21)` includes 0x20, the space), the
double-quote, and the backslash. -/
def isUnquotedChar (c : Char) : Bool :=
  0x21 ≤ c.toNat && !(c == '"') && !(c == '\\')

/-- The trailing `(?:\s+|$)(.*)` shared by `WORD_RE` and `PARAM_RE`:
the position after the token must be end of input or whitespace; the
maximal whitespace run is consumed (`\s+` is greedy and `(.*)` always
matches, so no backtracking occurs), and the remainder group `(.*)` then
captures the longest newline-free run (`.` does not match a newline). -/
def sepRemainder (after : List Char) : Option (List Char) :=
  match after with
  | [] => some []
  | d :: rest =>
    if isWS d then
      some (((d :: rest).dropWhile isWS).takeWhile (fun c => !(c == '\n')))
    else none

/-- `WORD_RE.match(line)`: `^([a-z][a-z0-9_]*)(?:\s+|$)(.*)` with
`re.VERBOSE`.  The greedy name run is maximal; shortening it in
backtracking only exposes a name character, which is never whitespace, so
the match succeeds exactly when the maximal run is followed by whitespace
or end of input.  Returns the pair of captured groups (command name,
remainder). -/
def wordMatch (line : List Char) : Option (List Char × List Char) :=
  match line with
  | [] => none
  | c :: rest =>
    if isNameStart c then
      match sepRemainder (rest.dropWhile isNameChar) with
      | some rem => some (c :: rest.takeWhile isNameChar, rem)
      | none => none
    else none

/-- The quoted part `([^"\\]*(?:\\.[^"\\]*)*)"` of `PARAM_RE`, applied to
the text after the opening quote.  The content is a sequence of units:
either a character that is neither `"` nor `\`, or a backslash followed by
any character except newline (`.` does not match a newline).  No unit can
consume an unescaped `"`, so the closing quote position is unique and the
scan is deterministic.  Returns (content between the quotes, text after
the closing quote); `none` when no closing quote is reachable. -/
def quotedContent : List Char → Option (List Char × List Char)
  | [] => none
  | c :: rest =>
    if c == '"' then some ([], rest)
    else if c == '\\' then
      match rest with
      | [] => none
      | d :: rest2 =>
        if d == '\n' then none
        else
          match quotedContent rest2 with
          | some (cont, rem) => some (c :: d :: cont, rem)
          | none => none
    else
      match quotedContent rest with
      | some (cont, rem) => some (c :: cont, rem)
      | none => none

/-- `UNESCAPE_RE.sub(r'\g<1>', s)` for `UNESCAPE_RE = re.compile(r'\\(.)')`:
scanning left to right, each backslash is removed together with the
following character, which is kept literally.  A backslash followed by a
newline is not a match (`.` does not match a newline) and is kept, as is a
lone trailing backslash. -/
def unescape : List Char → List Char
  | [] => []
  | c :: rest =>
    if c == '\\' then
      match rest with
      | [] => [c]
      | d :: rest2 => if d == '\n' then c :: unescape (d :: rest2) else d :: unescape rest2
    else c :: unescape rest

/-- `PARAM_RE.match(r)`:
`^(?:([^\x00-\x20"\\]+)|"([^"\\]*(?:\\.[^"\\]*)*)")(?:\s+|$)(.*)`.
The first character decides the alternative (the unquoted class excludes
`"`; the quoted form requires a leading `"`), and within each alternative
the scan is maximal-munch with no useful backtracking, as argued at
`sepRemainder` and `quotedContent`.  Returns the value appended by
`tokenize` — `unquoted or UNESCAPE_RE.sub(r'\g<1>', quoted)` — together
with the new remainder group. -/
def paramMatch (r : List Char) : Option (List Char × List Char) :=
  match r with
  | [] => none
  | c :: rest =>
    if isUnquotedChar c then
      match sepRemainder ((c :: rest).dropWhile isUnquotedChar) with
      | some rem => some ((c :: rest).takeWhile isUnquotedChar, rem)
      | none => none
    else if c == '"' then
      match quotedContent rest with
      | none => none
      | some (cont, after) =>
        match sepRemainder after with
        | some rem => some (unescape cont, rem)
        | none => none
    else none

/-- The `while remainder:` loop of `tokenize`, written with explicit fuel
so that it is structurally recursive and evaluates by `decide`.  Each
successful `PARAM_RE` match consumes at least one character
(`paramMatch_length` below), so fuel equal to the remainder's length never
runs out; `tokenizeLoop` instantiates the fuel that way and
`tokenizeLoopF_congr` shows any sufficient fuel gives the same result. -/
def tokenizeLoopF : Nat → List Char → Except TokenizeError (List (List Char))
  | _, [] => Except.ok []
  | 0, _ :: _ => Except.error TokenizeError.invalidArgument
  | fuel + 1, c :: rest =>
    match paramMatch (c :: rest) with
    | none => Except.error TokenizeError.invalidArgument
    | some (tok, rem) => (tokenizeLoopF fuel rem).map (fun toks => tok :: toks)

/-- The `while remainder:` loop of `tokenize`: repeatedly match `PARAM_RE`
against the remainder, appending each token, until the remainder is empty;
raise `Invalid parameter` when `PARAM_RE` fails to match. -/
def tokenizeLoop (r : List Char) : Except TokenizeError (List (List Char)) :=
  tokenizeLoopF r.length r

/-- `tokenize(line)`: match `WORD_RE` (raising `Invalid command` on
failure), then run the parameter loop on the remainder.  The result list
is `[command, arg1, arg2, ...]` exactly as in the source
(`result = [command]` followed by `result.append(...)`). -/
def tokenize (line : List Char) : Except TokenizeError (List (List Char)) :=
  match wordMatch line with
  | none => Except.error TokenizeError.invalidCommand
  | some (command, remainder) =>
    match tokenizeLoop remainder with
    | Except.ok args => Except.ok (command :: args)
    | Except.error e => Except.error e

/-- `tokenize` applied to a `String`, with `String` results, for concrete
examples. -/
def tokenizeS (s : String) : Except TokenizeError (List String) :=
  match tokenize s.data with
  | Except.ok toks => Except.ok (toks.map (fun l => String.mk l))
  | Except.error e => Except.error e

/-- Space-separated join of a list of tokens, as in the spec's
`n + " " + join(A, " ")`. -/
def joinSpace : List (List Char) → List Char
  | [] => []
  | [t] => t
  | t :: t2 :: rest => t ++ ' ' :: joinSpace (t2 :: rest)

/-- A valid command name for `WORD_RE`: nonempty, first character in
`[a-z]`, remaining characters in `[a-z0-9_]`. -/
def validName (n : List Char) : Bool :=
  match n with
  | [] => false
  | c :: rest => isNameStart c && rest.all isNameChar

/-- A bare token as quantified in the spec's round-trip property:
nonempty, every character in the unquoted class. -/
def validTok (t : List Char) : Bool :=
  !t.isEmpty && t.all isUnquotedChar

/-- The unquoted-token class exactly as the spec words it: every character
except those with ordinal value below 0x20, the double-quote, and the
backslash.  Used only to compare the spec's claim against the class the
code actually uses (`isUnquotedChar`). -/
def specUnquotedChar (c : Char) : Bool :=
  !(c.toNat < 0x20) && !(c == '"') && !(c == '\\')

/-- The unescaping rule exactly as the spec words it: every backslash is
removed and the immediately following character is taken literally.  Used
to compare the code's `unescape` against the spec on quoted content. -/
def removeBackslashes : List Char → List Char
  | [] => []
  | c :: rest =>
    if c == '\\' then
      match rest with
      | [] => [c]
      | d :: rest2 => d :: removeBackslashes rest2
    else c :: removeBackslashes rest

/-- "Some parameter segment matches neither token form": the parameter
loop, started on `r`, reaches a nonempty remainder that `PARAM_RE` does
not match. -/
inductive ParamFail : List Char → Prop where
  | here (r : List Char) : r ≠ [] → paramMatch r = none → ParamFail r
  | later (r tok rem : List Char) :
      paramMatch r = some (tok, rem) → ParamFail rem → ParamFail r

/-- `MpdCommand = namedtuple('MpdCommand', ['name', 'auth_required'])`. -/
structure MpdCommand where
  name : String
  auth_required : Bool
deriving DecidableEq, Repr

/-- Registration error: the `ValueError('Tried to redefine handler ...')`
raised by `handle_request` on a duplicate pattern. -/
inductive RegError where
  | duplicatePattern
deriving DecidableEq, Repr

/-- The module-level registration state: `mpd_commands` is a Python `set`
(modelled as a `Finset`); `request_handlers` maps each registered pattern
source to its handler.  Handlers are kept abstract in the type `H`.  The
source's `request_handlers = {}` is a plain Python 2 dict keyed by
identity-hashed compiled-pattern objects, which preserves no insertion
order; the `List` here is therefore a faithful model only of the dict's
contents — membership, lookup, and adding an entry — and the position of
an entry in the list carries no information about the source (see the C5
theorem for the consequence for dispatch ordering). -/
structure RegState (H : Type) where
  mpd_commands : Finset MpdCommand
  request_handlers : List (String × H)
deriving DecidableEq

/-- The character class of the command-name search
`re.search('([a-z_]+)', pattern)`: lowercase letters and underscore. -/
def isCmdNameChar (c : Char) : Bool :=
  ('a' ≤ c && c ≤ 'z') || c == '_'

/-- `re.search('([a-z_]+)', pattern)`: the leftmost maximal run of
lowercase letters and underscores, or `none` when no such character
occurs.  `re.search` scans left to right for the first position where a
match starts, and the greedy `+` then takes the maximal run. -/
def firstNameRun : List Char → Option (List Char)
  | [] => none
  | c :: rest =>
    if isCmdNameChar c then some (c :: rest.takeWhile isCmdNameChar)
    else firstNameRun rest

/-- The first half of the `handle_request` decorator body:
`match = re.search('([a-z_]+)', pattern); if match is not None:
mpd_commands.add(MpdCommand(name=match.group(), auth_required=auth_required))`.
Note this runs before the duplicate check. -/
def addCommandFor {H : Type} (pattern : String) (auth_required : Bool)
    (s : RegState H) : RegState H :=
  match firstNameRun pattern.data with
  | some nameChars =>
    { s with mpd_commands :=
        insert (MpdCommand.mk (String.mk nameChars) auth_required) s.mpd_commands }
  | none => s

/-- The body of the `handle_request` decorator: add the derived command
(`addCommandFor`), then check whether the pattern is already registered
(compiled patterns with identical source and flags are identical re
objects, so the dict-membership test compares pattern sources) and either
raise the duplicate error — note the command was already added — or append
the new `(pattern, func)` entry.  The returned pair is the resulting state
together with the raised error, if any. -/
def handle_request {H : Type} (pattern : String) (auth_required : Bool) (func : H)
    (s : RegState H) : RegState H × Option RegError :=
  let s1 : RegState H := addCommandFor pattern auth_required s
  if s1.request_handlers.any (fun e => e.1 == pattern) then
    (s1, some RegError.duplicatePattern)
  else
    ({ s1 with request_handlers := s1.request_handlers ++ [(pattern, func)] }, none)

/-- Look up the handler registered for a pattern source. -/
def lookupHandler {H : Type} (s : RegState H) (pattern : String) : Option H :=
  match s.request_handlers.find? (fun e => e.1 == pattern) with
  | some e => some e.2
  | none => none

/-- Modelled from the spec: the dispatch routine is not part of this
module (only the `request_handlers` table is), and the spec states that it
"iterates registered entries in registration order, returns the first
whose pattern matches the full command line".  `matchesLine` abstracts
"the compiled pattern matches the line". -/
def dispatch {P H : Type} (matchesLine : P → String → Bool) :
    List (P × H) → String → Option H
  | [], _ => none
  | (p, h) :: rest, line =>
    if matchesLine p line then some h else dispatch matchesLine rest line

end Mpd

namespace Mpd

/-! ### Generic list lemmas -/

theorem all_takeWhile {α : Type} (p : α → Bool) :
    ∀ l : List α, (l.takeWhile p).all p = true := by
  intro l
  induction l with
  | nil => rfl
  | cons a l ih =>
    by_cases h : p a = true
    · simp [List.takeWhile_cons_of_pos h, h, ih]
    · simp [List.takeWhile_cons_of_neg h]

theorem takeWhile_append_of_all {α : Type} (p : α → Bool) :
    ∀ (l r : List α), l.all p = true → (l ++ r).takeWhile p = l ++ r.takeWhile p := by
  intro l r hl
  induction l with
  | nil => simp
  | cons a l ih =>
    simp only [List.all_cons, Bool.and_eq_true] at hl
    simp [List.takeWhile_cons_of_pos hl.1, ih hl.2]

theorem dropWhile_append_of_all {α : Type} (p : α → Bool) :
    ∀ (l r : List α), l.all p = true → (l ++ r).dropWhile p = r.dropWhile p := by
  intro l r hl
  induction l with
  | nil => simp
  | cons a l ih =>
    simp only [List.all_cons, Bool.and_eq_true] at hl
    simp [List.dropWhile_cons_of_pos hl.1, ih hl.2]

theorem takeWhile_of_all {α : Type} (p : α → Bool) :
    ∀ l : List α, l.all p = true → l.takeWhile p = l := by
  intro l hl
  induction l with
  | nil => rfl
  | cons a l ih =>
    simp only [List.all_cons, Bool.and_eq_true] at hl
    simp [List.takeWhile_cons_of_pos hl.1, ih hl.2]

theorem all_mono {α : Type} (p q : α → Bool) (hpq : ∀ a, p a = true → q a = true) :
    ∀ l : List α, l.all p = true → l.all q = true := by
  intro l hl
  induction l with
  | nil => rfl
  | cons a l ih =>
    simp only [List.all_cons, Bool.and_eq_true] at hl ⊢
    exact ⟨hpq a hl.1, ih hl.2⟩

theorem length_takeWhile {α : Type} (p : α → Bool) :
    ∀ l : List α, (l.takeWhile p).length ≤ l.length := by
  intro l
  induction l with
  | nil => simp
  | cons a l ih =>
    by_cases h : p a = true
    · simpa [List.takeWhile_cons_of_pos h] using ih
    · simp [List.takeWhile_cons_of_neg h]

theorem length_dropWhile {α : Type} (p : α → Bool) :
    ∀ l : List α, (l.dropWhile p).length ≤ l.length := by
  intro l
  induction l with
  | nil => simp
  | cons a l ih =>
    by_cases h : p a = true
    · simp only [List.dropWhile_cons_of_pos h]
      exact Nat.le_succ_of_le ih
    · simp [List.dropWhile_cons_of_neg h]

/-! ### Character class facts -/

theorem isWS_elim {c : Char} (h : isWS c = true) :
    c = ' ' ∨ c = '\t' ∨ c = '\n' ∨ c = '\r' ∨ c = '\x0B' ∨ c = '\x0C' := by
  have h2 := h
  simp only [isWS, Bool.or_eq_true, beq_iff_eq] at h2
  tauto

theorem unquoted_not_ws {c : Char} (h : isUnquotedChar c = true) : isWS c = false := by
  cases hx : isWS c with
  | false => rfl
  | true =>
    exfalso
    rcases isWS_elim hx with h1 | h1 | h1 | h1 | h1 | h1 <;> subst h1 <;>
      exact absurd h (by decide)

theorem unquoted_not_nl {c : Char} (h : isUnquotedChar c = true) : (c == '\n') = false := by
  cases hx : c == '\n' with
  | false => rfl
  | true =>
    exfalso
    have : c = '\n' := by simpa [beq_iff_eq] using hx
    subst this
    exact absurd h (by decide)

theorem ws_not_nameChar {c : Char} (h : isWS c = true) : isNameChar c = false := by
  rcases isWS_elim h with h1 | h1 | h1 | h1 | h1 | h1 <;> subst h1 <;> decide

end Mpd

namespace Mpd

/-! ### Consumption lemmas: each parameter match strictly shortens the
remainder, so the `while remainder:` loop terminates and the fuel of
`tokenizeLoopF` is irrelevant once it covers the length. -/

theorem sepRemainder_length {after rem : List Char} (h : sepRemainder after = some rem) :
    rem.length ≤ after.length := by
  unfold sepRemainder at h
  cases after with
  | nil =>
    cases h
    simp
  | cons d rest =>
    by_cases hd : isWS d = true
    · simp only [hd, if_pos] at h
      cases h
      calc ((( d :: rest).dropWhile isWS).takeWhile (fun c => !(c == '\n'))).length
          ≤ ((d :: rest).dropWhile isWS).length := length_takeWhile _ _
        _ ≤ (d :: rest).length := length_dropWhile _ _
    · simp [hd] at h

theorem quotedContent_length_aux :
    ∀ (k : Nat) (r cont after : List Char), r.length ≤ k →
      quotedContent r = some (cont, after) → after.length < r.length := by
  intro k
  induction k with
  | zero =>
    intro r cont after hle h
    have : r = [] := List.eq_nil_of_length_eq_zero (Nat.le_zero.mp hle)
    subst this
    exact absurd h (by simp [quotedContent])
  | succ k ihk =>
    intro r cont after hle h
    have ih : ∀ (r2 cont2 after2 : List Char), r2.length < r.length →
        quotedContent r2 = some (cont2, after2) → after2.length < r2.length := by
      intro r2 cont2 after2 hlt h2
      exact ihk r2 cont2 after2 (by omega) h2
    cases r with
    | nil => exact absurd h (by simp [quotedContent])
    | cons c rest =>
      unfold quotedContent at h
      by_cases hq : c == '"'
      · simp only [hq, if_pos] at h
        cases h
        simp
      · simp only [hq] at h
        by_cases hb : c == '\\'
        · simp only [hb, if_pos, if_neg] at h
          cases rest with
          | nil => exact absurd h (by simp)
          | cons d rest2 =>
            by_cases hd : d == '\n'
            · simp [hd] at h
            · simp only [hd, Bool.false_eq_true, if_false, if_neg] at h
              cases hrec : quotedContent rest2 with
              | none => rw [hrec] at h; exact absurd h (by simp)
              | some pr =>
                rw [hrec] at h
                cases pr with
                | mk cont2 after2 =>
                  simp only [Option.some.injEq, Prod.mk.injEq] at h
                  have hlt : after2.length < rest2.length :=
                    ih rest2 cont2 after2 (by simp only [List.length_cons]; omega) hrec
                  have : after = after2 := h.2.symm
                  subst this
                  simp only [List.length_cons]
                  omega
        · simp only [hb, Bool.false_eq_true, if_false, if_neg] at h
          cases hrec : quotedContent rest with
          | none => rw [hrec] at h; exact absurd h (by simp)
          | some pr =>
            rw [hrec] at h
            cases pr with
            | mk cont2 after2 =>
              simp only [Option.some.injEq, Prod.mk.injEq] at h
              have hlt : after2.length < rest.length :=
                ih rest cont2 after2 (by simp only [List.length_cons]; omega) hrec
              have : after = after2 := h.2.symm
              subst this
              simp only [List.length_cons]
              omega

theorem quotedContent_length (r cont after : List Char)
    (h : quotedContent r = some (cont, after)) : after.length < r.length :=
  quotedContent_length_aux r.length r cont after (le_refl _) h

theorem paramMatch_length :
    ∀ (r tok rem : List Char), paramMatch r = some (tok, rem) → rem.length < r.length := by
  intro r tok rem h
  cases r with
  | nil => exact absurd h (by simp [paramMatch])
  | cons c rest =>
    unfold paramMatch at h
    by_cases hu : isUnquotedChar c = true
    · simp only [hu, if_pos] at h
      cases hs : sepRemainder ((c :: rest).dropWhile isUnquotedChar) with
      | none => rw [hs] at h; exact absurd h (by simp)
      | some rem2 =>
        rw [hs] at h
        simp only [Option.some.injEq, Prod.mk.injEq] at h
        have h1 : rem2.length ≤ ((c :: rest).dropWhile isUnquotedChar).length :=
          sepRemainder_length hs
        rw [List.dropWhile_cons_of_pos hu] at h1
        have h2 : (rest.dropWhile isUnquotedChar).length ≤ rest.length := length_dropWhile _ _
        have : rem = rem2 := h.2.symm
        subst this
        simp only [List.length_cons]
        omega
    · simp only [hu, Bool.false_eq_true, if_false, if_neg] at h
      by_cases hq : c == '"'
      · simp only [hq, if_pos] at h
        cases hc : quotedContent rest with
        | none => rw [hc] at h; exact absurd h (by simp)
        | some pr =>
          rw [hc] at h
          cases pr with
          | mk cont after =>
            simp only at h
            cases hs : sepRemainder after with
            | none => rw [hs] at h; exact absurd h (by simp)
            | some rem2 =>
              rw [hs] at h
              simp only [Option.some.injEq, Prod.mk.injEq] at h
              have h1 : rem2.length ≤ after.length := sepRemainder_length hs
              have h2 : after.length < rest.length := quotedContent_length rest cont after hc
              have : rem = rem2 := h.2.symm
              subst this
              simp only [List.length_cons]
              omega
      · simp [hq] at h

theorem tokenizeLoopF_congr :
    ∀ (f1 f2 : Nat) (r : List Char), r.length ≤ f1 → r.length ≤ f2 →
      tokenizeLoopF f1 r = tokenizeLoopF f2 r := by
  intro f1
  induction f1 with
  | zero =>
    intro f2 r h1 _
    have : r = [] := List.eq_nil_of_length_eq_zero (Nat.le_zero.mp h1)
    subst this
    cases f2 <;> rfl
  | succ g1 ih =>
    intro f2 r h1 h2
    cases r with
    | nil => cases f2 <;> rfl
    | cons c rest =>
      cases f2 with
      | zero => exact absurd h2 (by simp)
      | succ g2 =>
        simp only [tokenizeLoopF]
        cases hp : paramMatch (c :: rest) with
        | none => rfl
        | some pr =>
          cases pr with
          | mk tok rem =>
            have hlt : rem.length < (c :: rest).length := paramMatch_length _ _ _ hp
            simp only [List.length_cons] at h1 h2 hlt
            dsimp only
            rw [ih g2 rem (by omega) (by omega)]

theorem tokenizeLoop_nil : tokenizeLoop [] = Except.ok [] := rfl

theorem tokenizeLoop_cons (c : Char) (rest : List Char) :
    tokenizeLoop (c :: rest) =
      match paramMatch (c :: rest) with
      | none => Except.error TokenizeError.invalidArgument
      | some (tok, rem) => (tokenizeLoop rem).map (fun toks => tok :: toks) := by
  show tokenizeLoopF (c :: rest).length (c :: rest) = _
  simp only [List.length_cons, tokenizeLoopF]
  cases hp : paramMatch (c :: rest) with
  | none => rfl
  | some pr =>
    cases pr with
    | mk tok rem =>
      have hlt : rem.length < (c :: rest).length := paramMatch_length _ _ _ hp
      simp only [List.length_cons] at hlt
      dsimp only
      rw [tokenizeLoopF_congr rest.length rem.length rem (by omega) (le_refl _)]
      rfl

end Mpd

namespace Mpd

/-! ### Unfolding lemmas for the two `PARAM_RE` alternatives -/

theorem dropWhile_of_all {α : Type} (p : α → Bool) :
    ∀ l : List α, l.all p = true → l.dropWhile p = [] := by
  intro l hl
  induction l with
  | nil => rfl
  | cons a l ih =>
    simp only [List.all_cons, Bool.and_eq_true] at hl
    simp [List.dropWhile_cons_of_pos hl.1, ih hl.2]

theorem sepRemainder_nil : sepRemainder [] = some [] := rfl

theorem sepRemainder_cons_ws (d : Char) (rest : List Char) (hd : isWS d = true) :
    sepRemainder (d :: rest) =
      some (((d :: rest).dropWhile isWS).takeWhile (fun c => !(c == '\n'))) := by
  unfold sepRemainder
  dsimp only
  rw [if_pos hd]

theorem paramMatch_unquoted (c : Char) (rest : List Char) (hc : isUnquotedChar c = true) :
    paramMatch (c :: rest) =
      match sepRemainder ((c :: rest).dropWhile isUnquotedChar) with
      | some rem => some ((c :: rest).takeWhile isUnquotedChar, rem)
      | none => none := by
  unfold paramMatch
  dsimp only
  rw [if_pos hc]

theorem paramMatch_quoted (rest : List Char) :
    paramMatch ('"' :: rest) =
      match quotedContent rest with
      | none => none
      | some (cont, after) =>
        match sepRemainder after with
        | some rem => some (unescape cont, rem)
        | none => none := by
  unfold paramMatch
  dsimp only
  rw [if_neg (by decide), if_pos (by decide)]

/-- A whole token of unquoted-class characters, with nothing after it,
matches as one parameter consuming everything. -/
theorem paramMatch_whole (c : Char) (t : List Char)
    (h : (c :: t).all isUnquotedChar = true) :
    paramMatch (c :: t) = some (c :: t, []) := by
  have hc : isUnquotedChar c = true := by
    simp only [List.all_cons, Bool.and_eq_true] at h
    exact h.1
  rw [paramMatch_unquoted c t hc, dropWhile_of_all _ _ h, takeWhile_of_all _ _ h]
  rfl

/-! ### `WORD_RE` on a valid name followed by a separator -/

theorem wordMatch_valid_append (n r : List Char) (hn : validName n = true)
    (hr : r = [] ∨ ∃ d r2, r = d :: r2 ∧ isWS d = true) :
    wordMatch (n ++ r) =
      some (n, (r.dropWhile isWS).takeWhile (fun c => !(c == '\n'))) := by
  cases n with
  | nil => simp [validName] at hn
  | cons c tail =>
    simp only [validName, Bool.and_eq_true] at hn
    obtain ⟨hc, htail⟩ := hn
    show wordMatch (c :: (tail ++ r)) = _
    unfold wordMatch
    dsimp only
    rw [if_pos hc]
    rcases hr with hr | ⟨d, r2, hr, hd⟩
    · subst hr
      rw [List.append_nil, takeWhile_of_all _ _ htail, dropWhile_of_all _ _ htail]
      rfl
    · subst hr
      rw [takeWhile_append_of_all _ _ _ htail, dropWhile_append_of_all _ _ _ htail,
        List.takeWhile_cons_of_neg (by simp [ws_not_nameChar hd]),
        List.dropWhile_cons_of_neg (by simp [ws_not_nameChar hd]),
        List.append_nil, sepRemainder_cons_ws d r2 hd]

/-! ### The parameter loop on a space-separated list of bare tokens -/

theorem joinSpace_all (q : Char → Bool) (hsp : q ' ' = true) :
    ∀ A : List (List Char), A.all (fun t => t.all q) = true →
      (joinSpace A).all q = true := by
  intro A hA
  induction A with
  | nil => rfl
  | cons t A ih =>
    simp only [List.all_cons, Bool.and_eq_true] at hA
    cases A with
    | nil => simpa [joinSpace] using hA.1
    | cons t2 A2 =>
      show ((t ++ ' ' :: joinSpace (t2 :: A2)).all q) = true
      rw [List.all_append, List.all_cons]
      simp only [hA.1, hsp, ih hA.2, Bool.and_self]

theorem joinSpace_head_unquoted (t2 : List Char) (A2 : List (List Char))
    (h : validTok t2 = true) :
    ∃ c2 js, joinSpace (t2 :: A2) = c2 :: js ∧ isUnquotedChar c2 = true := by
  cases t2 with
  | nil => simp [validTok] at h
  | cons c2 t2' =>
    simp only [validTok, List.isEmpty_cons, Bool.not_false, Bool.true_and,
      List.all_cons, Bool.and_eq_true] at h
    cases A2 with
    | nil => exact ⟨c2, t2', rfl, h.1⟩
    | cons t3 A3 =>
      exact ⟨c2, t2' ++ ' ' :: joinSpace (t3 :: A3), by simp [joinSpace], h.1⟩

theorem validTok_all_unquoted {t : List Char} (h : validTok t = true) :
    t.all isUnquotedChar = true := by
  cases t with
  | nil => rfl
  | cons x xs => simpa [validTok] using h

theorem tokenizeLoop_joinSpace :
    ∀ A : List (List Char), A.all validTok = true →
      tokenizeLoop (joinSpace A) = Except.ok A := by
  intro A
  induction A with
  | nil => intro _; rfl
  | cons t A ih =>
    intro hA
    simp only [List.all_cons, Bool.and_eq_true] at hA
    obtain ⟨ht, hA2⟩ := hA
    obtain ⟨c, t', rfl⟩ : ∃ c t', t = c :: t' := by
      cases t with
      | nil => simp [validTok] at ht
      | cons c t' => exact ⟨c, t', rfl⟩
    have htall : (c :: t').all isUnquotedChar = true := validTok_all_unquoted ht
    have hc : isUnquotedChar c = true := by
      simp only [List.all_cons, Bool.and_eq_true] at htall
      exact htall.1
    have ht' : t'.all isUnquotedChar = true := by
      simp only [List.all_cons, Bool.and_eq_true] at htall
      exact htall.2
    cases A with
    | nil =>
      show tokenizeLoop (c :: t') = Except.ok [c :: t']
      rw [tokenizeLoop_cons, paramMatch_whole c t' htall]
      rfl
    | cons t2 A2 =>
      show tokenizeLoop ((c :: t') ++ ' ' :: joinSpace (t2 :: A2)) = _
      rw [List.cons_append, tokenizeLoop_cons,
        paramMatch_unquoted c (t' ++ ' ' :: joinSpace (t2 :: A2)) hc]
      rw [show ((c :: (t' ++ ' ' :: joinSpace (t2 :: A2))).dropWhile isUnquotedChar) =
          ' ' :: joinSpace (t2 :: A2) by
        rw [List.dropWhile_cons_of_pos hc, dropWhile_append_of_all _ _ _ ht',
          List.dropWhile_cons_of_neg (by decide)]]
      rw [show ((c :: (t' ++ ' ' :: joinSpace (t2 :: A2))).takeWhile isUnquotedChar) =
          c :: t' by
        rw [List.takeWhile_cons_of_pos hc, takeWhile_append_of_all _ _ _ ht',
          List.takeWhile_cons_of_neg (by decide), List.append_nil]]
      rw [sepRemainder_cons_ws ' ' (joinSpace (t2 :: A2)) (by decide)]
      rw [List.dropWhile_cons_of_pos (by decide)]
      obtain ⟨c2, js, hj, hc2⟩ :=
        joinSpace_head_unquoted t2 A2 (by
          simp only [List.all_cons, Bool.and_eq_true] at hA2
          exact hA2.1)
      rw [hj, List.dropWhile_cons_of_neg (by simp [unquoted_not_ws hc2]), ← hj]
      have hnl : (joinSpace (t2 :: A2)).all (fun a => !(a == '\n')) = true := by
        refine joinSpace_all _ (by decide) _ ?_
        refine all_mono _ _ ?_ _ hA2
        intro t hv
        refine all_mono _ _ ?_ _ (validTok_all_unquoted hv)
        intro a ha
        simp [unquoted_not_nl ha]
      rw [takeWhile_of_all _ _ hnl]
      dsimp only
      rw [ih hA2]
      rfl

end Mpd

namespace Mpd

/-! ### `tokenize` unfolding -/

theorem tokenize_wordMatch_none {line : List Char} (h : wordMatch line = none) :
    tokenize line = Except.error TokenizeError.invalidCommand := by
  unfold tokenize
  rw [h]

theorem tokenize_wordMatch_some {line cmd rem : List Char}
    (h : wordMatch line = some (cmd, rem)) :
    tokenize line =
      match tokenizeLoop rem with
      | Except.ok args => Except.ok (cmd :: args)
      | Except.error e => Except.error e := by
  unfold tokenize
  rw [h]

/-! ### The parameter loop fails only with the invalid-argument error, and
exactly when some parameter segment matches neither token form -/

theorem tokenizeLoop_error_kind_aux :
    ∀ (k : Nat) (r : List Char) (e : TokenizeError), r.length ≤ k →
      tokenizeLoop r = Except.error e → e = TokenizeError.invalidArgument := by
  intro k
  induction k with
  | zero =>
    intro r e hle h
    have : r = [] := List.eq_nil_of_length_eq_zero (Nat.le_zero.mp hle)
    subst this
    rw [tokenizeLoop_nil] at h
    exact Except.noConfusion h
  | succ k ih =>
    intro r e hle h
    cases r with
    | nil =>
      rw [tokenizeLoop_nil] at h
      exact Except.noConfusion h
    | cons c rest =>
      rw [tokenizeLoop_cons] at h
      cases hp : paramMatch (c :: rest) with
      | none =>
        rw [hp] at h
        dsimp only at h
        injection h with h2
        exact h2.symm
      | some pr =>
        cases pr with
        | mk tok rem =>
          rw [hp] at h
          dsimp only at h
          cases hrec : tokenizeLoop rem with
          | ok toks =>
            rw [hrec] at h
            exact absurd h (by simp [Except.map])
          | error e2 =>
            rw [hrec] at h
            have he : e2 = e := by simpa [Except.map] using h
            have hlen : rem.length ≤ k := by
              have := paramMatch_length _ _ _ hp
              simp only [List.length_cons] at this hle
              omega
            exact he ▸ ih rem e2 hlen hrec

theorem tokenizeLoop_error_kind {r : List Char} {e : TokenizeError}
    (h : tokenizeLoop r = Except.error e) : e = TokenizeError.invalidArgument :=
  tokenizeLoop_error_kind_aux r.length r e (le_refl _) h

theorem paramFail_loop :
    ∀ r : List Char, ParamFail r →
      tokenizeLoop r = Except.error TokenizeError.invalidArgument := by
  intro r h
  induction h with
  | here r hne hp =>
    cases r with
    | nil => exact absurd rfl hne
    | cons c rest =>
      rw [tokenizeLoop_cons, hp]
  | later r tok rem hp _ ih =>
    cases r with
    | nil => exact absurd hp (by simp [paramMatch])
    | cons c rest =>
      rw [tokenizeLoop_cons, hp]
      dsimp only
      rw [ih]
      rfl

theorem loop_error_paramFail_aux :
    ∀ (k : Nat) (r : List Char), r.length ≤ k →
      tokenizeLoop r = Except.error TokenizeError.invalidArgument → ParamFail r := by
  intro k
  induction k with
  | zero =>
    intro r hle h
    have : r = [] := List.eq_nil_of_length_eq_zero (Nat.le_zero.mp hle)
    subst this
    rw [tokenizeLoop_nil] at h
    exact Except.noConfusion h
  | succ k ih =>
    intro r hle h
    cases r with
    | nil =>
      rw [tokenizeLoop_nil] at h
      exact Except.noConfusion h
    | cons c rest =>
      rw [tokenizeLoop_cons] at h
      cases hp : paramMatch (c :: rest) with
      | none => exact ParamFail.here _ (by simp) hp
      | some pr =>
        cases pr with
        | mk tok rem =>
          rw [hp] at h
          dsimp only at h
          cases hrec : tokenizeLoop rem with
          | ok toks =>
            rw [hrec] at h
            exact absurd h (by simp [Except.map])
          | error e2 =>
            rw [hrec] at h
            have he : e2 = TokenizeError.invalidArgument := by
              simpa [Except.map] using h
            subst he
            have hlen : rem.length ≤ k := by
              have := paramMatch_length _ _ _ hp
              simp only [List.length_cons] at this hle
              omega
            exact ParamFail.later _ tok rem hp (ih rem hlen hrec)

theorem tokenizeLoop_invalidArgument_iff (r : List Char) :
    tokenizeLoop r = Except.error TokenizeError.invalidArgument ↔ ParamFail r :=
  ⟨loop_error_paramFail_aux r.length r (le_refl _), paramFail_loop r⟩

/-! ### Decomposing a successful `WORD_RE` match -/

theorem wordMatch_some_decomp {line cmd rem : List Char}
    (h : wordMatch line = some (cmd, rem)) :
    ∃ n r, line = n ++ r ∧ validName n = true ∧
      (r = [] ∨ ∃ d r2, r = d :: r2 ∧ isWS d = true) := by
  cases line with
  | nil => exact absurd h (by simp [wordMatch])
  | cons c rest =>
    unfold wordMatch at h
    dsimp only at h
    by_cases hc : isNameStart c = true
    · rw [if_pos hc] at h
      refine ⟨c :: rest.takeWhile isNameChar, rest.dropWhile isNameChar, ?_, ?_, ?_⟩
      · rw [List.cons_append, List.takeWhile_append_dropWhile]
      · simp [validName, hc, all_takeWhile]
      · cases hd : rest.dropWhile isNameChar with
        | nil => exact Or.inl rfl
        | cons d r2 =>
          refine Or.inr ⟨d, r2, rfl, ?_⟩
          rw [hd] at h
          unfold sepRemainder at h
          dsimp only at h
          by_cases hw : isWS d = true
          · exact hw
          · rw [if_neg hw] at h
            exact absurd h (by simp)
    · rw [if_neg hc] at h
      exact absurd h (by simp)

/-! ### Unescaping, one step at a time -/

theorem unescape_esc (d : Char) (rest : List Char) (hd : (d == '\n') = false) :
    unescape ('\\' :: d :: rest) = d :: unescape rest := by
  simp only [unescape]
  rw [if_pos (by decide), if_neg (by simp [hd])]

theorem unescape_plain (c : Char) (rest : List Char) (hc : (c == '\\') = false) :
    unescape (c :: rest) = c :: unescape rest := by
  rw [unescape.eq_def]
  dsimp only
  rw [if_neg (by simp [hc])]

theorem removeBackslashes_esc (d : Char) (rest : List Char) :
    removeBackslashes ('\\' :: d :: rest) = d :: removeBackslashes rest := by
  simp only [removeBackslashes]
  rw [if_pos (by decide)]

theorem removeBackslashes_plain (c : Char) (rest : List Char)
    (hc : (c == '\\') = false) :
    removeBackslashes (c :: rest) = c :: removeBackslashes rest := by
  rw [removeBackslashes.eq_def]
  dsimp only
  rw [if_neg (by simp [hc])]

theorem unescape_no_backslash :
    ∀ t : List Char, t.all (fun c => !(c == '\\')) = true → unescape t = t := by
  intro t h
  induction t with
  | nil => rfl
  | cons c rest ih =>
    simp only [List.all_cons, Bool.and_eq_true] at h
    have hne : (c == '\\') = false := by simpa using h.1
    rw [unescape_plain c rest hne, ih h.2]

theorem quotedContent_plain :
    ∀ t : List Char, t.all (fun c => !(c == '"') && !(c == '\\')) = true →
      quotedContent (t ++ ['"']) = some (t, []) := by
  intro t h
  induction t with
  | nil => rfl
  | cons c rest ih =>
    simp only [List.all_cons, Bool.and_eq_true] at h
    have hq : (c == '"') = false := by
      have h1 := h.1
      simp only [Bool.and_eq_true, Bool.not_eq_true'] at h1
      exact h1.1
    have hb : (c == '\\') = false := by
      have h1 := h.1
      simp only [Bool.and_eq_true, Bool.not_eq_true'] at h1
      exact h1.2
    show quotedContent (c :: (rest ++ ['"'])) = some (c :: rest, [])
    rw [quotedContent.eq_def]
    dsimp only
    rw [if_neg (by simp [hq]), if_neg (by simp [hb]), ih h.2]

theorem unescape_quoted_aux :
    ∀ (k : Nat) (r cont after : List Char), r.length ≤ k →
      quotedContent r = some (cont, after) →
      unescape cont = removeBackslashes cont := by
  intro k
  induction k with
  | zero =>
    intro r cont after hle h
    have : r = [] := List.eq_nil_of_length_eq_zero (Nat.le_zero.mp hle)
    subst this
    exact absurd h (by simp [quotedContent])
  | succ k ih =>
    intro r cont after hle h
    cases r with
    | nil => exact absurd h (by simp [quotedContent])
    | cons c rest =>
      rw [quotedContent.eq_def] at h
      dsimp only at h
      by_cases hq : (c == '"') = true
      · rw [if_pos hq] at h
        obtain ⟨h1, h2⟩ : [] = cont ∧ rest = after := by simpa using h
        subst h1
        rfl
      · rw [if_neg hq] at h
        by_cases hb : (c == '\\') = true
        · rw [if_pos hb] at h
          cases rest with
          | nil => exact absurd h (by simp)
          | cons d rest2 =>
            dsimp only at h
            by_cases hd : (d == '\n') = true
            · rw [if_pos hd] at h
              exact absurd h (by simp)
            · rw [if_neg hd] at h
              cases hrec : quotedContent rest2 with
              | none =>
                rw [hrec] at h
                exact absurd h (by simp)
              | some pr =>
                cases pr with
                | mk cont2 after2 =>
                  rw [hrec] at h
                  obtain ⟨h1, h2⟩ : c :: d :: cont2 = cont ∧ after2 = after := by
                    simpa using h
                  subst h1
                  have hc : c = '\\' := by simpa using hb
                  subst hc
                  have hdf : (d == '\n') = false := by simpa using hd
                  rw [unescape_esc d cont2 hdf, removeBackslashes_esc d cont2]
                  have hlen : rest2.length ≤ k := by
                    simp only [List.length_cons] at hle
                    omega
                  rw [ih rest2 cont2 after2 hlen hrec]
        · rw [if_neg hb] at h
          cases hrec : quotedContent rest with
          | none =>
            rw [hrec] at h
            exact absurd h (by simp)
          | some pr =>
            cases pr with
            | mk cont2 after2 =>
              rw [hrec] at h
              obtain ⟨h1, h2⟩ : c :: cont2 = cont ∧ after2 = after := by simpa using h
              subst h1
              have hbf : (c == '\\') = false := by simpa using hb
              rw [unescape_plain c cont2 hbf, removeBackslashes_plain c cont2 hbf]
              have hlen : rest.length ≤ k := by
                simp only [List.length_cons] at hle
                omega
              rw [ih rest cont2 after2 hlen hrec]

theorem unescape_quoted (r cont after : List Char)
    (h : quotedContent r = some (cont, after)) :
    unescape cont = removeBackslashes cont :=
  unescape_quoted_aux r.length r cont after (le_refl _) h

end Mpd

namespace Mpd

/-! ### Registration state lemmas -/

theorem addCommandFor_request_handlers {H : Type} (p : String) (a : Bool)
    (s : RegState H) :
    (addCommandFor p a s).request_handlers = s.request_handlers := by
  unfold addCommandFor
  cases firstNameRun p.data <;> rfl

theorem addCommandFor_mpd_commands {H : Type} (p : String) (a : Bool)
    (s : RegState H) :
    (addCommandFor p a s).mpd_commands =
      match firstNameRun p.data with
      | some n => insert (MpdCommand.mk (String.mk n) a) s.mpd_commands
      | none => s.mpd_commands := by
  unfold addCommandFor
  cases firstNameRun p.data <;> rfl

theorem handle_request_fst_mpd_commands {H : Type} (p : String) (a : Bool) (f : H)
    (s : RegState H) :
    ((handle_request p a f s).1).mpd_commands = (addCommandFor p a s).mpd_commands := by
  unfold handle_request
  dsimp only
  split <;> rfl

theorem handle_request_success {H : Type} {p : String} {a : Bool} {f : H}
    {s s1 : RegState H} (h : handle_request p a f s = (s1, none)) :
    s.request_handlers.any (fun e => e.1 == p) = false ∧
    s1 = { addCommandFor p a s with
           request_handlers := s.request_handlers ++ [(p, f)] } := by
  unfold handle_request at h
  dsimp only at h
  by_cases hc : (addCommandFor p a s).request_handlers.any (fun e => e.1 == p) = true
  · rw [if_pos hc] at h
    exact absurd (congrArg Prod.snd h) (by simp)
  · rw [if_neg hc] at h
    have h1 := congrArg Prod.fst h
    dsimp only at h1
    rw [addCommandFor_request_handlers] at hc h1
    constructor
    · cases hx : s.request_handlers.any (fun e => e.1 == p) with
      | false => rfl
      | true => exact absurd hx hc
    · exact h1.symm

theorem find_append_self {H : Type} :
    ∀ (l : List (String × H)) (p : String) (f : H),
      l.any (fun e => e.1 == p) = false →
      (l ++ [(p, f)]).find? (fun e => e.1 == p) = some (p, f) := by
  intro l p f h
  induction l with
  | nil =>
    rw [List.nil_append, List.find?_cons]
    simp
  | cons e l ih =>
    simp only [List.any_cons, Bool.or_eq_false_iff] at h
    rw [List.cons_append, List.find?_cons]
    simp only [h.1]
    exact ih h.2

end Mpd

namespace Mpd

/-- Claim C8: `tokenize` is total and deterministic: every successful
parameter match strictly shortens the remainder (so the `while remainder:`
loop terminates), every input string produces a result, and two runs on
the same input give the same result. -/
theorem c8_total_deterministic :
    (∀ r tok rem : List Char, paramMatch r = some (tok, rem) →
      rem.length < r.length) ∧
    (∀ line : List Char, ∃ out, tokenize line = out) ∧
    (∀ (line : List Char) (o1 o2 : Except TokenizeError (List (List Char))),
      tokenize line = o1 → tokenize line = o2 → o1 = o2) := by
  refine ⟨paramMatch_length, ?_, ?_⟩
  · intro line
    exact ⟨tokenize line, rfl⟩
  · intro line o1 o2 h1 h2
    rw [← h1, ← h2]

/-- Witness for C8 at a concrete parameter match and input line. -/
theorem c8_total_deterministic_witness :
    ([] : List Char).length < (['a'] : List Char).length ∧
    (Except.ok [['a']] : Except TokenizeError (List (List Char))) = Except.ok [['a']] :=
  ⟨c8_total_deterministic.1 ['a'] ['a'] [] (by decide),
   c8_total_deterministic.2.2 ['a'] (Except.ok [['a']]) (Except.ok [['a']])
     (by decide) (by decide)⟩

/-- Claim C3 counterexample: the spec's unquoted class accepts the space
character (its ordinal 0x20 is not below 0x20), but the code's class —
built from `range(0x21)` — excludes every ordinal up to and including
0x20, so an unquoted run breaks at a space: `cmd a b` tokenizes to the
three tokens `cmd`, `a`, `b` and not to `cmd`, `a b` as the longest-run
reading of the claim would require. -/
theorem c3_counterexample :
    specUnquotedChar ' ' = true ∧ isUnquotedChar ' ' = false ∧
    tokenizeS "cmd a b" = Except.ok ["cmd", "a", "b"] ∧
    tokenizeS "cmd a b" ≠ Except.ok ["cmd", "a b"] := by
  decide

/-- Claim C3 (amended): an unquoted parameter token is the longest run of
characters outside the excluded set, where the excluded set is every
character with ordinal value below 0x21 — the control bytes and the space —
plus the double-quote and the backslash; every character outside that
excluded set is accepted inside an unquoted token. -/
theorem c3_amended (c : Char) (r : List Char) (hc : isUnquotedChar c = true) :
    paramMatch (c :: r) =
      (match sepRemainder ((c :: r).dropWhile isUnquotedChar) with
       | some rem => some ((c :: r).takeWhile isUnquotedChar, rem)
       | none => none) ∧
    (∀ d : Char, isUnquotedChar d =
      (decide (0x21 ≤ d.toNat) && !(d == '"') && !(d == '\\'))) ∧
    (∀ t : List Char, t.all isUnquotedChar = true →
      paramMatch (c :: t) = some (c :: t, [])) := by
  refine ⟨paramMatch_unquoted c r hc, fun d => rfl, ?_⟩
  intro t ht
  exact paramMatch_whole c t (by simp [List.all_cons, hc, ht])

/-- Witness for the amended C3: the unquoted run from `a b` is `a`, the
maximal run of the code's class, stopping at the space. -/
theorem c3_amended_witness :
    paramMatch ['a', ' ', 'b'] = some (['a'], ['b']) := by
  have h := (c3_amended 'a' [' ', 'b'] (by decide)).1
  rw [h]
  decide

/-- Claim C4 counterexample: a quoted parameter containing an unescaped
control byte (here 0x01) between the quotes is accepted, not rejected:
the quoted form `[^"\\]` admits every character except the quote and the
backslash, unprintable control bytes included. -/
theorem c4_counterexample :
    tokenizeS "cmd \"a\x01b\"" = Except.ok ["cmd", "a\x01b"] ∧
    tokenizeS "cmd \"a\x01b\"" ≠ Except.error TokenizeError.invalidArgument := by
  decide

/-- Claim C4 (amended): a quoted parameter may contain any characters
other than a double-quote or a backslash — including unescaped bytes with
ordinal value below 0x20 — and the parameter match accepts it, returning
the quoted content literally. -/
theorem c4_amended (t : List Char)
    (h : t.all (fun c => !(c == '"') && !(c == '\\')) = true) :
    paramMatch ('"' :: (t ++ ['"'])) = some (t, []) := by
  rw [paramMatch_quoted, quotedContent_plain t h]
  dsimp only
  rw [unescape_no_backslash t (all_mono _ _ (fun a ha => by
      simp only [Bool.and_eq_true] at ha
      exact ha.2) t h)]
  rw [sepRemainder_nil]

/-- Witness for the amended C4 at quoted content containing byte 0x01. -/
theorem c4_amended_witness :
    paramMatch ('"' :: (['a', '\x01', 'b'] ++ ['"'])) =
      some (['a', '\x01', 'b'], []) :=
  c4_amended ['a', '\x01', 'b'] (by decide)

/-- Claim C6: on every quoted parameter the code's unescaping agrees with
"remove each backslash and take the immediately following character
literally": backslash-quote gives a quote, backslash-backslash a single
backslash, and backslash followed by the letter n the literal letter n (no
escape-code interpretation); in particular the line with the quoted body
`a\"b` yields the single argument `a"b`. -/
theorem c6_unescaping :
    (∀ r cont after : List Char, quotedContent r = some (cont, after) →
      unescape cont = removeBackslashes cont) ∧
    tokenizeS "cmd \"a\\\"b\"" = Except.ok ["cmd", "a\"b"] ∧
    tokenizeS "cmd \"a\\\\b\"" = Except.ok ["cmd", "a\\b"] ∧
    tokenizeS "cmd \"a\\nb\"" = Except.ok ["cmd", "anb"] :=
  ⟨unescape_quoted, by decide, by decide, by decide⟩

/-- Witness for C6 at the concrete quoted body `a\"b`. -/
theorem c6_unescaping_witness :
    unescape ['a', '\\', '"', 'b'] = removeBackslashes ['a', '\\', '"', 'b'] :=
  c6_unescaping.1 ['a', '\\', '"', 'b', '"'] ['a', '\\', '"', 'b'] [] (by decide)

end Mpd

namespace Mpd

theorem joinSpace_no_nl (A : List (List Char)) (hA : A.all validTok = true) :
    (joinSpace A).all (fun a => !(a == '\n')) = true := by
  refine joinSpace_all _ (by decide) _ ?_
  refine all_mono _ _ ?_ _ hA
  intro t hv
  refine all_mono _ _ ?_ _ (validTok_all_unquoted hv)
  intro a ha
  simp [unquoted_not_nl ha]

/-- Claim C1: for every valid command name `n` and every list `A` of
nonempty bare tokens over the unquoted class (a superset of the spec's
printable non-whitespace, non-quote, non-backslash tokens), tokenizing
`n`, one space, and the space-joined `A` yields `n` with argument list
exactly `A`; and tokenizing `n` alone yields `n` with no arguments. -/
theorem c1_roundtrip (n : List Char) (A : List (List Char))
    (hn : validName n = true) (hA : A.all validTok = true) :
    tokenize (n ++ ' ' :: joinSpace A) = Except.ok (n :: A) ∧
    tokenize n = Except.ok [n] := by
  constructor
  · have hw := wordMatch_valid_append n (' ' :: joinSpace A) hn
      (Or.inr ⟨' ', joinSpace A, rfl, by decide⟩)
    rw [tokenize_wordMatch_some hw,
      List.dropWhile_cons_of_pos (by decide : isWS ' ' = true)]
    cases A with
    | nil => rfl
    | cons t A2 =>
      obtain ⟨c2, js, hj, hc2⟩ := joinSpace_head_unquoted t A2 (by
        simp only [List.all_cons, Bool.and_eq_true] at hA
        exact hA.1)
      rw [hj, List.dropWhile_cons_of_neg (by simp [unquoted_not_ws hc2]), ← hj,
        takeWhile_of_all _ _ (joinSpace_no_nl _ hA), tokenizeLoop_joinSpace _ hA]
  · have hw := wordMatch_valid_append n [] hn (Or.inl rfl)
    rw [List.append_nil] at hw
    rw [tokenize_wordMatch_some hw]
    rfl

/-- Witness for C1 at the name `ping` and the token list `a`, `bc`. -/
theorem c1_roundtrip_witness :
    tokenize (['p','i','n','g'] ++ ' ' :: joinSpace [['a'], ['b','c']]) =
      Except.ok [['p','i','n','g'], ['a'], ['b','c']] ∧
    tokenize ['p','i','n','g'] = Except.ok [['p','i','n','g']] :=
  c1_roundtrip ['p','i','n','g'] [['a'], ['b','c']] (by decide) (by decide)

/-- Claim C7: `tokenize` fails with the invalid-command error exactly when
the line does not begin (without leading whitespace) with a command name
matching `[a-z][a-z0-9_]*` followed by whitespace or end of input; it
fails with the invalid-argument error exactly when the command name
matched and some parameter segment of the remainder matches neither token
form; the unterminated quote `cmd "abc` is such an invalid argument. -/
theorem c7_failure_taxonomy :
    (∀ line : List Char,
      tokenize line = Except.error TokenizeError.invalidCommand ↔
        ¬ ∃ n r, line = n ++ r ∧ validName n = true ∧
          (r = [] ∨ ∃ d r2, r = d :: r2 ∧ isWS d = true)) ∧
    (∀ line : List Char,
      tokenize line = Except.error TokenizeError.invalidArgument ↔
        ∃ cmd rem, wordMatch line = some (cmd, rem) ∧ ParamFail rem) ∧
    tokenize ("cmd \"abc".data) = Except.error TokenizeError.invalidArgument := by
  refine ⟨?_, ?_, by decide⟩
  · intro line
    cases hw : wordMatch line with
    | none =>
      constructor
      · intro _ hdec
        obtain ⟨n, r, hline, hn, hr⟩ := hdec
        rw [hline, wordMatch_valid_append n r hn hr] at hw
        exact Option.noConfusion hw
      · intro _
        exact tokenize_wordMatch_none hw
    | some pr =>
      cases pr with
      | mk cmd rem =>
        constructor
        · intro htok
          rw [tokenize_wordMatch_some hw] at htok
          cases hloop : tokenizeLoop rem with
          | ok args =>
            rw [hloop] at htok
            exact absurd htok (by simp)
          | error e =>
            rw [hloop] at htok
            dsimp only at htok
            injection htok with he
            exact absurd (he.symm.trans (tokenizeLoop_error_kind hloop)) (by decide)
        · intro hndec
          exact ((hndec (wordMatch_some_decomp hw)).elim)
  · intro line
    cases hw : wordMatch line with
    | none =>
      constructor
      · intro htok
        rw [tokenize_wordMatch_none hw] at htok
        injection htok with he
        exact absurd he (by decide)
      · rintro ⟨cmd, rem, hw2, _⟩
        exact Option.noConfusion hw2
    | some pr =>
      cases pr with
      | mk cmd rem =>
        rw [tokenize_wordMatch_some hw]
        constructor
        · intro htok
          cases hloop : tokenizeLoop rem with
          | ok args =>
            rw [hloop] at htok
            exact absurd htok (by simp)
          | error e =>
            rw [hloop] at htok
            dsimp only at htok
            injection htok with he
            subst he
            exact ⟨cmd, rem, rfl, (tokenizeLoop_invalidArgument_iff rem).mp hloop⟩
        · rintro ⟨cmd2, rem2, hw2, hpf⟩
          obtain ⟨h1, h2⟩ : cmd = cmd2 ∧ rem = rem2 := by simpa using hw2
          subst h1
          subst h2
          rw [(tokenizeLoop_invalidArgument_iff rem).mpr hpf]

/-- Witness for C7: a line with leading whitespace admits no command-name
decomposition, and the unterminated quote line has a failing parameter
segment after its command. -/
theorem c7_failure_taxonomy_witness :
    (¬ ∃ n r, (' ' :: ['p']) = n ++ r ∧ validName n = true ∧
      (r = [] ∨ ∃ d r2, r = d :: r2 ∧ isWS d = true)) ∧
    (∃ cmd rem, wordMatch ("cmd \"abc".data) = some (cmd, rem) ∧ ParamFail rem) :=
  ⟨(c7_failure_taxonomy.1 (' ' :: ['p'])).mp (by decide),
   (c7_failure_taxonomy.2.1 ("cmd \"abc".data)).mp (by decide)⟩

end Mpd

namespace Mpd

theorem addCommandFor_already {H : Type} (p : String) (a : Bool) (t : RegState H)
    (h : ∀ n, firstNameRun p.data = some n →
      MpdCommand.mk (String.mk n) a ∈ t.mpd_commands) :
    addCommandFor p a t = t := by
  unfold addCommandFor
  cases hn : firstNameRun p.data with
  | none => rfl
  | some n =>
    have hmem := h n hn
    cases t with
    | mk M R =>
      simp only [RegState.mk.injEq]
      exact ⟨Finset.insert_eq_self.mpr hmem, trivial⟩

/-- Claim C2: after pattern `p` is successfully registered with handler
`f`, registering `p` again (with any handler `g` and the same auth flag)
fails with the duplicate-pattern error and leaves both the
pattern-to-handler table and the command registry exactly as they were,
with `p` still mapped to `f`. -/
theorem c2_duplicate_pattern {H : Type} (s : RegState H) (p : String) (a : Bool)
    (f g : H) (s1 : RegState H) (h : handle_request p a f s = (s1, none)) :
    handle_request p a g s1 = (s1, some RegError.duplicatePattern) ∧
    lookupHandler s1 p = some f := by
  obtain ⟨hnodup, hs1⟩ := handle_request_success h
  subst hs1
  have hadd : addCommandFor p a
      ({ addCommandFor p a s with
         request_handlers := s.request_handlers ++ [(p, f)] } : RegState H) =
      { addCommandFor p a s with
        request_handlers := s.request_handlers ++ [(p, f)] } := by
    apply addCommandFor_already
    intro n hn
    show MpdCommand.mk (String.mk n) a ∈ (addCommandFor p a s).mpd_commands
    rw [addCommandFor_mpd_commands, hn]
    exact Finset.mem_insert_self _ _
  have hany : (s.request_handlers ++ [(p, f)]).any (fun e => e.1 == p) = true := by
    rw [List.any_append]
    simp
  constructor
  · unfold handle_request
    dsimp only
    rw [hadd, if_pos hany]
  · unfold lookupHandler
    dsimp only
    rw [find_append_self s.request_handlers p f hnodup]

/-- Witness for C2: registering the pattern `ping` twice from the empty
state. -/
theorem c2_duplicate_pattern_witness :
    handle_request "ping" true (1 : Nat)
        (RegState.mk (insert (MpdCommand.mk "ping" true) ∅) [("ping", 0)]) =
      (RegState.mk (insert (MpdCommand.mk "ping" true) ∅) [("ping", 0)],
        some RegError.duplicatePattern) ∧
    lookupHandler
        (RegState.mk (insert (MpdCommand.mk "ping" true) ∅) [("ping", 0)]) "ping" =
      some 0 :=
  c2_duplicate_pattern (RegState.mk ∅ []) "ping" true 0 1
    (RegState.mk (insert (MpdCommand.mk "ping" true) ∅) [("ping", 0)]) (by decide)

/-- Claim C5 (code bug): the spec prescribes a table kept in registration
order with first-match-wins dispatch, but the source's
`request_handlers = {}` is a plain Python 2 dict keyed by identity-hashed
compiled-pattern objects, and such a dict preserves no insertion order.
Iterating the same table contents in its two possible orders resolves the
same line to different handlers, so "dispatch order equals registration
order" is not a property the storage provides: with `P1` registered before
`P2` and both matching the line, an adverse iteration order selects `P2`'s
handler. -/
theorem c5_order_not_determined :
    [((1 : Nat), (11 : Nat)), (2, 22)].Perm [(2, 22), (1, 11)] ∧
    dispatch (fun _ _ => true) [((1 : Nat), (11 : Nat)), (2, 22)] "ping" = some 11 ∧
    dispatch (fun _ _ => true) [((2 : Nat), (22 : Nat)), (1, 11)] "ping" = some 22 ∧
    (11 : Nat) ≠ 22 := by
  refine ⟨?_, by decide, by decide, by decide⟩
  decide

/-- Claim C9: command registration is idempotent with respect to identical
(name, auth) pairs: registering a second pattern that derives the same
command name with the same auth flag leaves the command set exactly as
after the first registration. -/
theorem c9_command_idempotent {H : Type} (s : RegState H) (p1 p2 : String) (a : Bool)
    (f g : H) (h : firstNameRun p2.data = firstNameRun p1.data) :
    ((handle_request p2 a g (handle_request p1 a f s).1).1).mpd_commands =
      ((handle_request p1 a f s).1).mpd_commands := by
  rw [handle_request_fst_mpd_commands p2, addCommandFor_mpd_commands p2,
    handle_request_fst_mpd_commands p1, addCommandFor_mpd_commands p1, h]
  cases hn : firstNameRun p1.data with
  | none => rfl
  | some n =>
    dsimp only
    exact Finset.insert_idem _ _

/-- Witness for C9: registering `ping` twice from the empty state leaves
one command. -/
theorem c9_command_idempotent_witness :
    ((handle_request "ping" true (1 : Nat)
        (handle_request "ping" true (0 : Nat) (RegState.mk ∅ [])).1).1).mpd_commands =
      ((handle_request "ping" true (0 : Nat) (RegState.mk ∅ [])).1).mpd_commands :=
  c9_command_idempotent (RegState.mk ∅ []) "ping" "ping" true 0 1 rfl

/-- Claim C10: a pattern source with no lowercase letter or underscore
anywhere still registers its handler but adds no command; otherwise the
derived name is the leftmost maximal run of lowercase letters and
underscores anywhere in the source — digits are excluded from the run, and
the derived name need not equal the pattern's leading literal token, as
`12ab3c` deriving `ab` shows. -/
theorem c10_name_derivation {H : Type} :
    (∀ l : List Char, l.all (fun c => !(isCmdNameChar c)) = true →
      firstNameRun l = none) ∧
    (∀ (pre : List Char) (c : Char) (rest : List Char),
      pre.all (fun x => !(isCmdNameChar x)) = true → isCmdNameChar c = true →
      firstNameRun (pre ++ c :: rest) = some (c :: rest.takeWhile isCmdNameChar)) ∧
    (∀ (s : RegState H) (p : String) (a : Bool) (f : H),
      firstNameRun p.data = none →
      ((handle_request p a f s).1).mpd_commands = s.mpd_commands ∧
      (s.request_handlers.any (fun e => e.1 == p) = false →
        handle_request p a f s =
          ({ s with request_handlers := s.request_handlers ++ [(p, f)] }, none))) ∧
    (∀ (s : RegState H) (p : String) (a : Bool) (f : H) (n : List Char),
      firstNameRun p.data = some n →
      ((handle_request p a f s).1).mpd_commands =
        insert (MpdCommand.mk (String.mk n) a) s.mpd_commands) ∧
    isCmdNameChar '0' = false ∧
    firstNameRun ('1' :: '2' :: ['a', 'b', '3', 'c']) = some ['a', 'b'] := by
  refine ⟨?_, ?_, ?_, ?_, by decide, by decide⟩
  · intro l hl
    induction l with
    | nil => rfl
    | cons c rest ih =>
      simp only [List.all_cons, Bool.and_eq_true] at hl
      have hc : isCmdNameChar c = false := by simpa using hl.1
      rw [firstNameRun.eq_def]
      dsimp only
      rw [if_neg (by simp [hc])]
      exact ih hl.2
  · intro pre c rest hpre hc
    induction pre with
    | nil =>
      rw [List.nil_append, firstNameRun.eq_def]
      dsimp only
      rw [if_pos hc]
    | cons e pre ih =>
      simp only [List.all_cons, Bool.and_eq_true] at hpre
      have he : isCmdNameChar e = false := by simpa using hpre.1
      rw [List.cons_append, firstNameRun.eq_def]
      dsimp only
      rw [if_neg (by simp [he])]
      exact ih hpre.2
  · intro s p a f hnone
    have haddid : addCommandFor p a s = s := by
      unfold addCommandFor
      rw [hnone]
    constructor
    · rw [handle_request_fst_mpd_commands, haddid]
    · intro hnew
      unfold handle_request
      dsimp only
      rw [haddid, if_neg (by simp [hnew])]
  · intro s p a f n hsome
    rw [handle_request_fst_mpd_commands, addCommandFor_mpd_commands, hsome]

/-- Witness for C10: the pattern `123` has no name run and registers its
handler without adding a command. -/
theorem c10_name_derivation_witness :
    ((handle_request "123" true (0 : Nat) (RegState.mk ∅ [])).1).mpd_commands =
      (RegState.mk ∅ ([] : List (String × Nat))).mpd_commands ∧
    handle_request "123" true (0 : Nat) (RegState.mk ∅ []) =
      (RegState.mk ∅ [("123", 0)], none) := by
  have h := (@c10_name_derivation Nat).2.2.1 (RegState.mk ∅ []) "123" true 0 (by decide)
  refine ⟨h.1, ?_⟩
  rw [h.2 (by decide)]
  rfl

end Mpd
